import Mathlib

/-!
Shallow embedding of src/After/inventory_system.py.

The Python module keeps a global dictionary stock_data mapping item names
to integer quantities.  A Python dict preserves insertion order, so we
embed it as an association list (List (String × Int)) whose keys are
unique in any state reachable through the dict operations; the dict
primitives below (lookup, set, delete, update) mirror the dict semantics
used by the source.  Python integers are unbounded, hence Int.
File contents are embedded as parsed JSON outcomes: a JSON object with
integer values, or malformed content on which json.load raises
JSONDecodeError.  The file system is an association list from path to
file data; a path absent from it corresponds to FileNotFoundError.
-/

namespace Inventory

/-- The embedded Python dict: insertion-ordered association list. -/
abbrev Dict := List (String × Int)

/-- First value bound to key k, mirroring dict lookup. -/
def dget? (d : Dict) (k : String) : Option Int :=
  match d with
  | [] => none
  | (k2, v) :: rest => if k2 = k then some v else dget? rest k

/-- Mirrors stock_data.get(item, 0): value at k, or 0 when absent. -/
def dgetD (d : Dict) (k : String) : Int :=
  (dget? d k).getD 0

/-- Membership test on keys, mirroring the KeyError condition. -/
def dmem (d : Dict) (k : String) : Bool :=
  (dget? d k).isSome

/-- Mirrors dict assignment stock_data[k] = v: overwrite in place if the
key is present, otherwise append at the end (insertion order). -/
def dset (d : Dict) (k : String) (v : Int) : Dict :=
  match d with
  | [] => [(k, v)]
  | (k2, v2) :: rest =>
      if k2 = k then (k2, v) :: rest else (k2, v2) :: dset rest k v

/-- Mirrors del stock_data[k]. -/
def ddel (d : Dict) (k : String) : Dict :=
  match d with
  | [] => []
  | (k2, v2) :: rest =>
      if k2 = k then ddel rest k else (k2, v2) :: ddel rest k

/-- Mirrors stock_data.update(data): assign each pair of data in order. -/
def dupdate (d : Dict) (data : Dict) : Dict :=
  match data with
  | [] => d
  | (k, v) :: rest => dupdate (dset d k v) rest

/-- Values of the Python arguments reaching the isinstance checks. -/
inductive PyVal where
  | str (s : String)
  | int (n : Int)
  | pyNone
  deriving DecidableEq, Repr

/-- Mirrors isinstance(x, str). -/
def PyVal.isStr : PyVal → Bool
  | .str _ => true
  | _ => false

/-- Mirrors isinstance(x, int). -/
def PyVal.isInt : PyVal → Bool
  | .int _ => true
  | _ => false

/-- One log line of add_item; datetime.now() is taken as a parameter. -/
def logLine (now : String) (qty : Int) (item : String) : String :=
  now ++ ": Added " ++ toString qty ++ " of " ++ item

/-- Embeds add_item(item, qty, logs).  The result pairs the new stock
dict with the log list as the caller observes it after the call (for
logs = none the fresh local list is returned, which no caller sees).
The validation is exactly the isinstance checks of the source; on
failure the function returns before touching the dict or the logs. -/
def add_item (now : String) (stock : Dict) (item qty : PyVal)
    (logs : Option (List String)) : Dict × List String :=
  let logList := logs.getD []
  match item, qty with
  | .str s, .int n =>
      (dset stock s (dgetD stock s + n), logList ++ [logLine now n s])
  | _, _ => (stock, logList)

/-- Embeds remove_item(item, qty): decrement, delete the entry when the
result is at most 0, and swallow the KeyError on an absent key. -/
def remove_item (stock : Dict) (item : String) (qty : Int) : Dict :=
  match dget? stock item with
  | none => stock
  | some v =>
      let stock2 := dset stock item (v - qty)
      if v - qty ≤ 0 then ddel stock2 item else stock2

/-- Embeds get_qty(item) = stock_data.get(item, 0). -/
def get_qty (stock : Dict) (item : String) : Int :=
  dgetD stock item

/-- Embeds check_low_items(threshold): the comprehension
[item for item, qty in stock_data.items() if qty < threshold]. -/
def check_low_items (stock : Dict) (threshold : Int) : List String :=
  (stock.filter (fun p => p.2 < threshold)).map (fun p => p.1)

/-- Parsed content of a file as json.load sees it: a JSON object with
integer values, or content on which json.load raises JSONDecodeError. -/
inductive FileData where
  | obj (entries : Dict)
  | malformed
  deriving DecidableEq, Repr

/-- The file system: paths bound to file data; absent path means
FileNotFoundError on open. -/
abbrev FileSys := List (String × FileData)

def fsGet? (fs : FileSys) (path : String) : Option FileData :=
  match fs with
  | [] => none
  | (p, c) :: rest => if p = path then some c else fsGet? rest path

def fsSet (fs : FileSys) (path : String) (c : FileData) : FileSys :=
  match fs with
  | [] => [(path, c)]
  | (p, c2) :: rest =>
      if p = path then (p, c) :: rest else (p, c2) :: fsSet rest path c

/-- The exception load_data can let escape. -/
inductive LoadErr where
  | jsonDecode
  deriving DecidableEq, Repr

/-- Embeds load_data(file_path).  Returns the stock dict after the call
together with the exception that propagates, if any.  Absent file:
FileNotFoundError is caught and the dict is cleared.  Malformed file:
json.load raises before stock_data.clear() runs, so the dict keeps its
prior contents and the exception escapes.  Valid object: the dict is
cleared and then updated with the parsed data. -/
def load_data (fs : FileSys) (stock : Dict) (path : String) :
    Dict × Option LoadErr :=
  match fsGet? fs path with
  | none => ([], none)
  | some .malformed => (stock, some .jsonDecode)
  | some (.obj data) => (dupdate [] data, none)

/-- Embeds save_data(file_path): json.dump writes the whole dict as a
JSON object at path, overwriting any prior content. -/
def save_data (fs : FileSys) (stock : Dict) (path : String) : FileSys :=
  fsSet fs path (.obj stock)

/-- Well-formedness of the embedded dict: keys are unique, as they are
in every Python dict. -/
def WF (d : Dict) : Prop := (d.map Prod.fst).Nodup

instance (d : Dict) : Decidable (WF d) := by
  unfold WF
  infer_instance

/-! Basic lemmas about the dict primitives. -/

theorem dget?_mem {d : Dict} {k : String} {v : Int}
    (h : dget? d k = some v) : (k, v) ∈ d := by
  induction d with
  | nil => simp [dget?] at h
  | cons p rest ih =>
    obtain ⟨k2, v2⟩ := p
    by_cases hk : k2 = k
    · subst hk
      simp [dget?] at h
      simp [h]
    · simp [dget?, hk] at h
      exact List.mem_cons_of_mem _ (ih h)

theorem mem_dget? {d : Dict} {k : String} {v : Int}
    (hwf : WF d) (h : (k, v) ∈ d) : dget? d k = some v := by
  induction d with
  | nil => simp at h
  | cons p rest ih =>
    obtain ⟨k2, v2⟩ := p
    simp [WF, List.nodup_cons] at hwf
    rcases List.mem_cons.mp h with h1 | h1
    · injection h1 with hk hv
      subst hk; subst hv
      simp [dget?]
    · have hne : k2 ≠ k := by
        intro hkk
        subst hkk
        exact hwf.1 v (by simpa using h1)
      simp [dget?, hne]
      exact ih hwf.2 h1

theorem dget?_dset_self (d : Dict) (k : String) (v : Int) :
    dget? (dset d k v) k = some v := by
  induction d with
  | nil => simp [dset, dget?]
  | cons p rest ih =>
    obtain ⟨k2, v2⟩ := p
    by_cases hk : k2 = k
    · simp [dset, dget?, hk]
    · simp [dset, dget?, hk, ih]

theorem dget?_dset_ne (d : Dict) (k k2 : String) (v : Int) (hne : k2 ≠ k) :
    dget? (dset d k v) k2 = dget? d k2 := by
  induction d with
  | nil => simp [dset, dget?, Ne.symm hne]
  | cons p rest ih =>
    obtain ⟨k3, v3⟩ := p
    by_cases hk : k3 = k
    · subst hk
      simp [dset, dget?, Ne.symm hne]
    · simp [dset, dget?, hk]
      by_cases hk2 : k3 = k2 <;> simp [hk2, ih]

theorem dget?_ddel_self (d : Dict) (k : String) :
    dget? (ddel d k) k = none := by
  induction d with
  | nil => simp [ddel, dget?]
  | cons p rest ih =>
    obtain ⟨k2, v2⟩ := p
    by_cases hk : k2 = k
    · simp [ddel, hk, ih]
    · simp [ddel, dget?, hk, ih]

theorem dget?_ddel_ne (d : Dict) (k k2 : String) (hne : k2 ≠ k) :
    dget? (ddel d k) k2 = dget? d k2 := by
  induction d with
  | nil => simp [ddel]
  | cons p rest ih =>
    obtain ⟨k3, v3⟩ := p
    by_cases hk : k3 = k
    · subst hk
      simp [ddel, dget?, Ne.symm hne, ih]
    · simp [ddel, dget?, hk, ih]

theorem mem_dset {d : Dict} {k : String} {v : Int} {p : String × Int}
    (h : p ∈ dset d k v) : p ∈ d ∨ p = (k, v) := by
  induction d with
  | nil => simp [dset] at h; simp [h]
  | cons q rest ih =>
    obtain ⟨k2, v2⟩ := q
    by_cases hk : k2 = k
    · subst hk
      simp [dset] at h
      rcases h with h | h
      · right; simp [h]
      · left; exact List.mem_cons_of_mem _ h
    · simp [dset, hk] at h
      rcases h with h | h
      · left; simp [h]
      · rcases ih h with h1 | h1
        · left; exact List.mem_cons_of_mem _ h1
        · right; exact h1

theorem mem_ddel {d : Dict} {k : String} {p : String × Int}
    (h : p ∈ ddel d k) : p ∈ d ∧ p.1 ≠ k := by
  induction d with
  | nil => simp [ddel] at h
  | cons q rest ih =>
    obtain ⟨k2, v2⟩ := q
    by_cases hk : k2 = k
    · subst hk
      simp [ddel] at h
      exact ⟨List.mem_cons_of_mem _ (ih h).1, (ih h).2⟩
    · simp [ddel, hk] at h
      rcases h with h | h
      · subst h
        exact ⟨List.mem_cons_self _ _, hk⟩
      · exact ⟨List.mem_cons_of_mem _ (ih h).1, (ih h).2⟩

theorem fsGet?_mem {fs : FileSys} {path : String} {c : FileData}
    (h : fsGet? fs path = some c) : (path, c) ∈ fs := by
  induction fs with
  | nil => simp [fsGet?] at h
  | cons p rest ih =>
    obtain ⟨p2, c2⟩ := p
    by_cases hp : p2 = path
    · subst hp
      simp [fsGet?] at h
      simp [h]
    · simp [fsGet?, hp] at h
      exact List.mem_cons_of_mem _ (ih h)

theorem mem_fsSet {fs : FileSys} {path : String} {c : FileData}
    {p : String × FileData} (h : p ∈ fsSet fs path c) :
    p ∈ fs ∨ p = (path, c) := by
  induction fs with
  | nil => simp [fsSet] at h; simp [h]
  | cons q rest ih =>
    obtain ⟨p2, c2⟩ := q
    by_cases hp : p2 = path
    · subst hp
      simp [fsSet] at h
      rcases h with h | h
      · right; simp [h]
      · left; exact List.mem_cons_of_mem _ h
    · simp [fsSet, hp] at h
      rcases h with h | h
      · left; simp [h]
      · rcases ih h with h1 | h1
        · left; exact List.mem_cons_of_mem _ h1
        · right; exact h1

theorem fsGet?_fsSet_self (fs : FileSys) (path : String) (c : FileData) :
    fsGet? (fsSet fs path c) path = some c := by
  induction fs with
  | nil => simp [fsSet, fsGet?]
  | cons p rest ih =>
    obtain ⟨p2, c2⟩ := p
    by_cases hp : p2 = path
    · simp [fsSet, fsGet?, hp]
    · simp [fsSet, fsGet?, hp, ih]

/-- Claim C8: get_qty returns the quantity currently stored for the name
in the stock map, or 0 when the name is absent.  In the embedding get_qty
is a pure function of the dict, reflecting that the source only reads
stock_data.get(item, 0) and performs no mutation and no fallible
operation. -/
theorem C8_get_qty_spec (stock : Dict) (name : String) (hwf : WF stock) :
    (∀ v, (name, v) ∈ stock → get_qty stock name = v)
    ∧ ((∀ v, (name, v) ∉ stock) → get_qty stock name = 0) := by
  constructor
  · intro v hv
    unfold get_qty dgetD
    rw [mem_dget? hwf hv]
    rfl
  · intro habs
    unfold get_qty dgetD
    cases hq : dget? stock name with
    | none => rfl
    | some v => exact absurd (dget?_mem hq) (habs v)

theorem C8_witness :
    WF [("apple", 7)]
    ∧ ((∀ v, ("apple", v) ∈ [("apple", (7 : Int))] →
          get_qty [("apple", 7)] "apple" = v)
       ∧ ((∀ v, ("apple", v) ∉ [("apple", (7 : Int))]) →
          get_qty [("apple", 7)] "apple" = 0)) :=
  ⟨by decide, C8_get_qty_spec [("apple", 7)] "apple" (by decide)⟩

/-- Claim C6: remove_item on a name not present in the stock map leaves
the map unchanged; the KeyError raised by the failed subtraction is
caught and ignored, so no error escapes (the embedded function is total
and returns the unchanged dict). -/
theorem C6_remove_item_absent (stock : Dict) (item : String) (qty : Int)
    (h : dget? stock item = none) :
    remove_item stock item qty = stock := by
  unfold remove_item
  rw [h]

theorem C6_witness :
    dget? [("apple", 7)] "orange" = none
    ∧ remove_item [("apple", 7)] "orange" 1 = [("apple", 7)] :=
  ⟨by decide, C6_remove_item_absent [("apple", 7)] "orange" 1 (by decide)⟩

/-- Claim C5: remove_item on a present name decrements its quantity by
qty; when the result is at most 0 the entry is deleted, so the affected
entry never remains in the map with a quantity of zero or below; every
other key keeps its binding. -/
theorem C5_remove_item_present (stock : Dict) (item : String) (qty v : Int)
    (h : dget? stock item = some v) :
    dget? (remove_item stock item qty) item
        = (if v - qty ≤ 0 then none else some (v - qty))
    ∧ (∀ k, k ≠ item →
        dget? (remove_item stock item qty) k = dget? stock k)
    ∧ (∀ q, dget? (remove_item stock item qty) item = some q → 0 < q) := by
  unfold remove_item
  rw [h]
  by_cases hle : v - qty ≤ 0
  · simp only [hle, if_true]
    refine ⟨dget?_ddel_self _ _, ?_, ?_⟩
    · intro k hk
      rw [dget?_ddel_ne _ _ _ hk, dget?_dset_ne _ _ _ _ hk]
    · intro q hq
      rw [dget?_ddel_self] at hq
      exact absurd hq (by simp)
  · simp only [hle, if_false]
    refine ⟨dget?_dset_self _ _ _, ?_, ?_⟩
    · intro k hk
      rw [dget?_dset_ne _ _ _ _ hk]
    · intro q hq
      rw [dget?_dset_self] at hq
      injection hq with hq
      omega

theorem C5_witness :
    dget? [("apple", 10)] "apple" = some 10
    ∧ (dget? (remove_item [("apple", 10)] "apple" 3) "apple"
          = (if (10 : Int) - 3 ≤ 0 then none else some (10 - 3))
       ∧ (∀ k, k ≠ "apple" →
            dget? (remove_item [("apple", 10)] "apple" 3) k
              = dget? [("apple", 10)] k)
       ∧ (∀ q, dget? (remove_item [("apple", 10)] "apple" 3) "apple" = some q
            → 0 < q)) :=
  ⟨by decide, C5_remove_item_present [("apple", 10)] "apple" 3 10 (by decide)⟩

/-- Claim C9: load_data on a path bound to no file catches the
FileNotFoundError and clears the stock map: the call returns the empty
dict and lets no exception escape. -/
theorem C9_load_absent (fs : FileSys) (stock : Dict) (path : String)
    (h : fsGet? fs path = none) :
    load_data fs stock path = ([], none) := by
  unfold load_data
  rw [h]

theorem C9_witness :
    fsGet? [("a.json", FileData.obj [("x", 1)])] "b.json" = none
    ∧ load_data [("a.json", FileData.obj [("x", 1)])] [("apple", 3)] "b.json"
        = ([], none) :=
  ⟨by decide,
   C9_load_absent [("a.json", FileData.obj [("x", 1)])] [("apple", 3)]
     "b.json" (by decide)⟩

/-- Claim C1, counterexample: on a file whose content is invalid JSON the
claim predicts an emptied stock map and no exception, but load_data only
catches FileNotFoundError, so the JSONDecodeError escapes and the prior
stock is kept. -/
theorem C1_counterexample :
    ¬ ((load_data [("inv.json", FileData.malformed)] [("apple", 3)]
          "inv.json").1 = []
       ∧ (load_data [("inv.json", FileData.malformed)] [("apple", 3)]
          "inv.json").2 = none) := by
  decide

/-- Claim C1, amended: load_data on a path whose file exists but holds
invalid JSON raises the JSON decode error to the caller and leaves the
stock map holding its prior contents unchanged (neither emptied nor
replaced). -/
theorem C1_load_malformed (fs : FileSys) (stock : Dict) (path : String)
    (h : fsGet? fs path = some FileData.malformed) :
    load_data fs stock path = (stock, some LoadErr.jsonDecode) := by
  unfold load_data
  rw [h]

theorem C1_witness :
    fsGet? [("inv.json", FileData.malformed)] "inv.json"
        = some FileData.malformed
    ∧ load_data [("inv.json", FileData.malformed)] [("apple", 3)] "inv.json"
        = ([("apple", 3)], some LoadErr.jsonDecode) :=
  ⟨by decide,
   C1_load_malformed [("inv.json", FileData.malformed)] [("apple", 3)]
     "inv.json" (by decide)⟩

/-- Claim C10: whenever load_data lets an exception escape (any failure
other than the absent-file case, which is caught), the stock map keeps
its exact prior contents, because stock_data.clear() and
stock_data.update(data) run only after json.load has succeeded. -/
theorem C10_load_error_retains (fs : FileSys) (stock : Dict) (path : String)
    (e : LoadErr) (h : (load_data fs stock path).2 = some e) :
    (load_data fs stock path).1 = stock := by
  unfold load_data at h ⊢
  cases hf : fsGet? fs path with
  | none => rw [hf] at h; simp at h
  | some c =>
    cases c with
    | obj data => rw [hf] at h; simp at h
    | malformed => rfl

theorem C10_witness :
    (load_data [("inv.json", FileData.malformed)] [("banana", 2)]
        "inv.json").2 = some LoadErr.jsonDecode
    ∧ (load_data [("inv.json", FileData.malformed)] [("banana", 2)]
        "inv.json").1 = [("banana", 2)] :=
  ⟨by decide,
   C10_load_error_retains [("inv.json", FileData.malformed)] [("banana", 2)]
     "inv.json" LoadErr.jsonDecode (by decide)⟩

/-- Claim C3, counterexample: the claim says a call whose name fails the
non-empty-string validation is a no-op, but add_item only checks
isinstance(item, str); the empty string passes that check, so
add_item with an empty name mutates the stock map. -/
theorem C3_counterexample :
    ¬ (add_item "t" [] (PyVal.str "") (PyVal.int 1) (some [])).1 = [] := by
  decide

/-- Claim C3, amended: add_item validates only that name is a string
(empty strings pass) and qty an int; for every call where name is not a
string or qty not an int, the call returns before any mutation: the
stock map is unchanged, the caller log list receives no entry, and no
error is surfaced (the embedded function is total). -/
theorem C3_add_item_invalid (now : String) (stock : Dict) (item qty : PyVal)
    (logs : Option (List String))
    (h : item.isStr = false ∨ qty.isInt = false) :
    add_item now stock item qty logs = (stock, logs.getD []) := by
  cases item <;> cases qty <;>
    simp only [PyVal.isStr, PyVal.isInt] at h <;>
    first
      | rfl
      | simp at h

theorem C3_witness :
    (PyVal.pyNone.isStr = false ∨ (PyVal.int 1).isInt = false)
    ∧ add_item "t" [("apple", 7)] PyVal.pyNone (PyVal.int 1) (some ["old"])
        = ([("apple", 7)], ["old"]) :=
  ⟨by decide,
   C3_add_item_invalid "t" [("apple", 7)] PyVal.pyNone (PyVal.int 1)
     (some ["old"]) (by decide)⟩

/-- Claim C7: check_low_items returns exactly the names of the items
present in the stock map whose quantity is strictly below the threshold;
a name appears in the result precisely when the map binds it to such a
quantity, so names absent from the map never appear. -/
theorem C7_check_low_spec (stock : Dict) (t : Int) (name : String)
    (hwf : WF stock) :
    name ∈ check_low_items stock t
      ↔ ∃ q, dget? stock name = some q ∧ q < t := by
  unfold check_low_items
  constructor
  · intro h
    rcases List.mem_map.mp h with ⟨p, hp, hname⟩
    rcases List.mem_filter.mp hp with ⟨hmem, hlt⟩
    obtain ⟨k, q⟩ := p
    cases hname
    exact ⟨q, mem_dget? hwf hmem, by simpa using hlt⟩
  · rintro ⟨q, hq, hlt⟩
    refine List.mem_map.mpr ⟨(name, q), List.mem_filter.mpr ⟨dget?_mem hq, ?_⟩, rfl⟩
    simpa using hlt

theorem C7_witness :
    WF [("apple", 7), ("banana", 2)]
    ∧ ("banana" ∈ check_low_items [("apple", 7), ("banana", 2)] 5
        ↔ ∃ q, dget? [("apple", 7), ("banana", 2)] "banana" = some q ∧ q < 5) :=
  ⟨by decide, C7_check_low_spec [("apple", 7), ("banana", 2)] 5 "banana" (by decide)⟩

/-! Lemmas for the save and load round trip. -/

theorem dset_absent {d : Dict} {k : String} (v : Int)
    (h : dget? d k = none) : dset d k v = d ++ [(k, v)] := by
  induction d with
  | nil => rfl
  | cons p rest ih =>
    obtain ⟨k2, v2⟩ := p
    by_cases hk : k2 = k
    · simp [dget?, hk] at h
    · simp [dget?, hk] at h
      simp [dset, hk, ih h]

theorem dget?_append_none {a : Dict} (b : Dict) {k : String}
    (h : dget? a k = none) : dget? (a ++ b) k = dget? b k := by
  induction a with
  | nil => rfl
  | cons p rest ih =>
    obtain ⟨k2, v2⟩ := p
    by_cases hk : k2 = k
    · simp [dget?, hk] at h
    · simp [dget?, hk] at h
      simp [dget?, hk, ih h]

theorem dupdate_fresh (data : Dict) :
    ∀ acc : Dict, (data.map Prod.fst).Nodup
      → (∀ k ∈ data.map Prod.fst, dget? acc k = none)
      → dupdate acc data = acc ++ data := by
  induction data with
  | nil => intro acc _ _; simp [dupdate]
  | cons p rest ih =>
    intro acc hnd hfresh
    obtain ⟨k, v⟩ := p
    simp only [List.map_cons, List.nodup_cons] at hnd
    have hk : dget? acc k = none := hfresh k (by simp)
    have hstep : dset acc k v = acc ++ [(k, v)] := dset_absent v hk
    have hfresh2 : ∀ k2 ∈ rest.map Prod.fst, dget? (acc ++ [(k, v)]) k2 = none := by
      intro k2 hk2
      rw [dget?_append_none _ (hfresh k2 (by simp [hk2]))]
      have hne : k ≠ k2 := fun he => hnd.1 (he ▸ hk2)
      simp [dget?, hne]
    calc dupdate acc ((k, v) :: rest)
        = dupdate (acc ++ [(k, v)]) rest := by rw [dupdate, hstep]
      _ = (acc ++ [(k, v)]) ++ rest := ih (acc ++ [(k, v)]) hnd.2 hfresh2
      _ = acc ++ ((k, v) :: rest) := by simp

/-- Claim C4: save_data followed by load_data at the same path restores
exactly the stock map that was saved: the same keys bound to the same
quantities (here even in the same order), and no exception is raised. -/
theorem C4_save_load_roundtrip (fs : FileSys) (stock : Dict) (path : String)
    (hwf : WF stock) :
    load_data (save_data fs stock path) stock path = (stock, none) := by
  unfold load_data save_data
  rw [fsGet?_fsSet_self]
  have hupd : dupdate [] stock = stock := by
    have := dupdate_fresh stock [] hwf (fun k _ => rfl)
    simpa using this
  simp only [hupd]

theorem C4_witness :
    WF [("apple", 7), ("banana", 2)]
    ∧ load_data
        (save_data [("old.json", FileData.malformed)]
          [("apple", 7), ("banana", 2)] "inv.json")
        [("apple", 7), ("banana", 2)] "inv.json"
      = ([("apple", 7), ("banana", 2)], none) :=
  ⟨by decide,
   C4_save_load_roundtrip [("old.json", FileData.malformed)]
     [("apple", 7), ("banana", 2)] "inv.json" (by decide)⟩

/-! Client sessions: sequences of calls into the module, acting on the
global stock dict and on the file system that load_data and save_data
touch.  The process starts with an empty stock dict and, for these runs,
an empty file system, so every file a load reads was written by an
earlier save of the same session. -/

/-- One call of the public operations of the module. -/
inductive Op where
  | addItem (now : String) (item qty : PyVal) (logs : Option (List String))
  | removeItem (item : String) (qty : Int)
  | getQty (item : String)
  | checkLow (threshold : Int)
  | save (path : String)
  | load (path : String)

/-- The process-wide mutable state: the global stock_data dict together
with the file system. -/
structure SysState where
  stock : Dict
  fs : FileSys

/-- Effect of one call on the state.  getQty and checkLow only read.
For load, the stock component of the load_data result is the dict after
the call whether or not an exception escapes. -/
def step (st : SysState) : Op → SysState
  | .addItem now item qty logs =>
      { st with stock := (add_item now st.stock item qty logs).1 }
  | .removeItem item qty =>
      { st with stock := remove_item st.stock item qty }
  | .getQty _ => st
  | .checkLow _ => st
  | .save path => { st with fs := save_data st.fs st.stock path }
  | .load path => { st with stock := (load_data st.fs st.stock path).1 }

def runFrom (st : SysState) (ops : List Op) : SysState :=
  ops.foldl step st

/-- A session starting from the empty store and an empty file system. -/
def run (ops : List Op) : SysState :=
  runFrom ⟨[], []⟩ ops

/-- Every entry of the dict carries a strictly positive quantity. -/
def StockPos (d : Dict) : Prop := ∀ p ∈ d, 0 < p.2

instance (d : Dict) : Decidable (StockPos d) := by
  unfold StockPos
  exact List.decidableBAll _ d

/-- Every JSON object stored in the file system has strictly positive
quantities. -/
def FilesPos (fs : FileSys) : Prop :=
  ∀ pc ∈ fs, ∀ d, pc.2 = FileData.obj d → StockPos d

/-- The call adds a strictly positive quantity whenever it is an addItem
whose qty argument is an int (other calls cannot create entries). -/
def addPos : Op → Bool
  | .addItem _ _ (.int n) _ => decide (0 < n)
  | _ => true

theorem add_item_stockPos (now : String) (stock : Dict) (item qty : PyVal)
    (logs : Option (List String)) (hs : StockPos stock)
    (hq : addPos (.addItem now item qty logs) = true) :
    StockPos (add_item now stock item qty logs).1 := by
  cases item with
  | str s =>
    cases qty with
    | int n =>
      simp only [addPos, decide_eq_true_eq] at hq
      intro p hp
      rcases mem_dset hp with h | h
      · exact hs p h
      · subst h
        simp only
        unfold dgetD
        cases hv : dget? stock s with
        | none => simpa using hq
        | some v =>
          have := hs (s, v) (dget?_mem hv)
          simp only [Option.getD_some] at this ⊢
          omega
    | str s2 => exact hs
    | pyNone => exact hs
  | int n => cases qty <;> exact hs
  | pyNone => cases qty <;> exact hs

theorem remove_item_stockPos (stock : Dict) (item : String) (qty : Int)
    (hs : StockPos stock) : StockPos (remove_item stock item qty) := by
  unfold remove_item
  cases hv : dget? stock item with
  | none => exact hs
  | some v =>
    by_cases hle : v - qty ≤ 0
    · simp only [hle, if_true]
      intro p hp
      obtain ⟨hp1, hpne⟩ := mem_ddel hp
      rcases mem_dset hp1 with h | h
      · exact hs p h
      · subst h
        exact absurd rfl hpne
    · simp only [hle, if_false]
      intro p hp
      rcases mem_dset hp with h | h
      · exact hs p h
      · subst h
        simp only
        omega

theorem dupdate_stockPos (data : Dict) :
    ∀ acc : Dict, StockPos acc → StockPos data
      → StockPos (dupdate acc data) := by
  induction data with
  | nil => intro acc hacc _; exact hacc
  | cons p rest ih =>
    intro acc hacc hdata
    obtain ⟨k, v⟩ := p
    refine ih (dset acc k v) ?_ ?_
    · intro q hq
      rcases mem_dset hq with h | h
      · exact hacc q h
      · subst h
        exact hdata (k, v) (List.mem_cons_self _ _)
    · intro q hq
      exact hdata q (List.mem_cons_of_mem _ hq)

theorem load_data_stockPos (fs : FileSys) (stock : Dict) (path : String)
    (hf : FilesPos fs) (hs : StockPos stock) :
    StockPos (load_data fs stock path).1 := by
  unfold load_data
  cases hc : fsGet? fs path with
  | none => intro p hp; simp at hp
  | some c =>
    cases c with
    | malformed => exact hs
    | obj data =>
      have hdata : StockPos data :=
        hf (path, .obj data) (fsGet?_mem hc) data rfl
      exact dupdate_stockPos data [] (by intro p hp; simp at hp) hdata

theorem save_data_filesPos (fs : FileSys) (stock : Dict) (path : String)
    (hf : FilesPos fs) (hs : StockPos stock) :
    FilesPos (save_data fs stock path) := by
  intro pc hpc d hd
  rcases mem_fsSet hpc with h | h
  · exact hf pc h d hd
  · subst h
    simp only at hd
    injection hd with hd
    exact hd ▸ hs

theorem runFrom_inv (ops : List Op) :
    ∀ st : SysState, StockPos st.stock → FilesPos st.fs
      → (∀ op ∈ ops, addPos op = true)
      → StockPos (runFrom st ops).stock ∧ FilesPos (runFrom st ops).fs := by
  induction ops with
  | nil => intro st hs hf _; exact ⟨hs, hf⟩
  | cons op rest ih =>
    intro st hs hf hops
    have hop : addPos op = true := hops op (List.mem_cons_self _ _)
    have hrest : ∀ op2 ∈ rest, addPos op2 = true :=
      fun op2 h2 => hops op2 (List.mem_cons_of_mem _ h2)
    have hstep : StockPos (step st op).stock ∧ FilesPos (step st op).fs := by
      cases op with
      | addItem now item qty logs =>
        exact ⟨add_item_stockPos now st.stock item qty logs hs hop, hf⟩
      | removeItem item qty =>
        exact ⟨remove_item_stockPos st.stock item qty hs, hf⟩
      | getQty item => exact ⟨hs, hf⟩
      | checkLow t => exact ⟨hs, hf⟩
      | save path => exact ⟨hs, save_data_filesPos st.fs st.stock path hf hs⟩
      | load path => exact ⟨load_data_stockPos st.fs st.stock path hf hs, hf⟩
    exact ih (step st op) hstep.1 hstep.2 hrest

/-- Claim C2, counterexample: add_item accepts any int qty, including 0,
so the one-call session addItem("a", 0) starting from the empty store
leaves an entry with quantity 0 in the stock map, refuting the claimed
invariant for unrestricted operation sequences. -/
theorem C2_counterexample :
    ¬ StockPos (run [Op.addItem "t" (PyVal.str "a") (PyVal.int 0) none]).stock := by
  decide

/-- Claim C2, amended: after any sequence of addItem, removeItem,
getQty, checkLowItems, save and load calls starting from the empty
store (and an empty file system, so loads read only files saved in the
same session), in which every addItem whose qty is an int passes a
strictly positive value, every key present in the stock map has a
strictly positive quantity. -/
theorem C2_run_positive (ops : List Op)
    (h : ∀ op ∈ ops, addPos op = true) :
    StockPos (run ops).stock :=
  (runFrom_inv ops ⟨[], []⟩ (by intro p hp; simp at hp)
    (by intro pc hpc; simp at hpc) h).1

theorem C2_witness :
    (∀ op ∈ [Op.addItem "t" (PyVal.str "apple") (PyVal.int 10) none,
             Op.addItem "t" (PyVal.str "banana") (PyVal.int 2) none,
             Op.removeItem "apple" 3,
             Op.removeItem "orange" 1,
             Op.save "inv.json",
             Op.load "inv.json"], addPos op = true)
    ∧ StockPos (run [Op.addItem "t" (PyVal.str "apple") (PyVal.int 10) none,
             Op.addItem "t" (PyVal.str "banana") (PyVal.int 2) none,
             Op.removeItem "apple" 3,
             Op.removeItem "orange" 1,
             Op.save "inv.json",
             Op.load "inv.json"]).stock :=
  ⟨by decide,
   C2_run_positive [Op.addItem "t" (PyVal.str "apple") (PyVal.int 10) none,
             Op.addItem "t" (PyVal.str "banana") (PyVal.int 2) none,
             Op.removeItem "apple" 3,
             Op.removeItem "orange" 1,
             Op.save "inv.json",
             Op.load "inv.json"] (by decide)⟩

end Inventory
